import Mathlib

/-!
Verification of the PSR combustor script (`PSR.py`).

The script drives an external stiff integrator (`sim.step`) in a while-loop,
down-samples the trajectory into a CSV table, and reads the table back for
plotting.  We embed the script's own decision logic shallowly:

* the sampling while-loop (lines 83-101) becomes `stepOnce` / `runLoop`
  over exact rationals, with the stepper abstracted as a list of
  `StepInput`s (the values the external library returns at each step);
* the igniter pulse (lines 69-72) becomes the real-valued `igniter_mdot`;
* the CSV layer becomes character-list serialisation (`joinCells`) and
  parsing (`splitLine`), with `rowDict` modelling Python's
  `dict(zip(fieldnames, row))` (later duplicate keys win) and
  `dictReaderPass` modelling `csv.DictReader`'s behaviour across
  `seek(0)` rewinds (fieldnames are consumed once, at the first pass).
-/

namespace PSR

/-- Values the external library reports after one internal integration step:
`t` is the time returned by `sim.step(tfinal)`, `T` is `combustor.T`,
`mass` is `combustor.mass`, `mdot` is `v.mdot(tnow)`, and `X` is
`list(combustor.thermo.X)`. -/
structure StepInput where
  t : ℚ
  T : ℚ
  mass : ℚ
  mdot : ℚ
  X : List ℚ
deriving DecidableEq

/-- One data row written by `csvwriter.writerow([tnow, combustor.T, tres] +
list(combustor.thermo.X))` (line 100). -/
structure Row where
  time : ℚ
  temp : ℚ
  tres : ℚ
  X : List ℚ
deriving DecidableEq

/-- The row as the flat list of cells that is written: `[tnow, T, tres] ++ X`. -/
def Row.toList (r : Row) : List ℚ :=
  [r.time, r.temp, r.tres] ++ r.X

/-- The mutable state of the sampling while-loop: current time `tnow`,
the two trackers `Tprev` / `tprev` (temperature and time of the last
written record), and the data rows written so far. -/
structure LoopState where
  tnow : ℚ
  Tprev : ℚ
  tprev : ℚ
  rows : List Row
deriving DecidableEq

/-- `tfinal = 6.0` (line 83). -/
def tfinal : ℚ := 6

/-- Temperature threshold `1.0` in `abs(Tnow - Tprev) > 1.0` (line 97). -/
def deltaT : ℚ := 1

/-- Time threshold `2e-2` in `tnow - tprev > 2e-2` (line 97). -/
def deltaTime : ℚ := 2/100

/-- The write condition of line 97:
`abs(Tnow - Tprev) > 1.0 or tnow - tprev > 2e-2`. -/
def shouldWrite (Tnow Tprev tnow tprev : ℚ) : Bool :=
  decide (deltaT < |Tnow - Tprev|) || decide (deltaTime < tnow - tprev)

/-- One iteration of the while-loop body (lines 94-100).  `none` models the
uncaught `ZeroDivisionError` raised by `combustor.mass / v.mdot(tnow)` when
the valve flow rate is exactly zero; otherwise the new loop state. -/
def stepOnce (s : LoopState) (inp : StepInput) : Option LoopState :=
  if inp.mdot = 0 then none
  else
    let tnow := inp.t
    let tres := inp.mass / inp.mdot
    let Tnow := inp.T
    if shouldWrite Tnow s.Tprev tnow s.tprev then
      some { tnow := tnow, Tprev := Tnow, tprev := tnow,
             rows := s.rows ++ [⟨tnow, Tnow, tres, inp.X⟩] }
    else
      some { s with tnow := tnow }

/-- The while-loop `while tnow < tfinal` (lines 93-100), driven by the
sequence of stepper results.  `Except.error rows` models the run dying on an
uncaught division by zero with `rows` already written to the file;
`Except.ok` is normal loop exit. -/
def runLoop : LoopState → List StepInput → Except (List Row) LoopState
  | s, [] => .ok s
  | s, inp :: rest =>
    if s.tnow < tfinal then
      match stepOnce s inp with
      | none => .error s.rows
      | some s₁ => runLoop s₁ rest
    else .ok s

/-- The state before the loop (lines 84-86): `tnow = 0.0`,
`Tprev = combustor.T` (the reactor temperature at simulated time 0, passed
in as `T0`), `tprev = tnow`, and no data rows written yet. -/
def initState (T0 : ℚ) : LoopState :=
  { tnow := 0, Tprev := T0, tprev := 0, rows := [] }

/-- The data rows present in the file when the run ends, whether the loop
exited normally or died on a division by zero. -/
def outRows : Except (List Row) LoopState → List Row
  | .error rows => rows
  | .ok s => s.rows

/-- The time of the last record written, if any record was written and the
loop exited normally. -/
def lastWrittenTime (res : Except (List Row) LoopState) : Option ℚ :=
  match res with
  | .error _ => none
  | .ok s => (s.rows.getLast?).map Row.time

/-- The CSV header `['time','T','tres'] + combustor.thermo.species_names`
(line 88). -/
def fieldnames (speciesNames : List String) : List String :=
  ["time", "T", "tres"] ++ speciesNames

/-- The written table: the header row (line 90) followed by the data rows
the loop produced (line 100). -/
structure Table where
  header : List String
  dataRows : List Row
deriving DecidableEq

/-- The whole write phase: header first, then the sampled rows of the run. -/
def runProgram (speciesNames : List String) (T0 : ℚ) (steps : List StepInput) :
    Table :=
  { header := fieldnames speciesNames,
    dataRows := outRows (runLoop (initState T0) steps) }

/-- `shouldWrite` holds exactly when one of the two thresholds is exceeded. -/
theorem shouldWrite_true_iff (Tnow Tprev tnow tprev : ℚ) :
    shouldWrite Tnow Tprev tnow tprev = true ↔
      deltaT < |Tnow - Tprev| ∨ deltaTime < tnow - tprev := by
  simp [shouldWrite]

/-- C1: after an internal integration step with time `t_now` and temperature
`T_now`, a record `[t_now, T_now, tres, X...]` is appended and both trackers
are reset to `(t_now, T_now)` if and only if `|T_now - last_written_T| > 1.0`
or `t_now - last_written_t > 0.02`; when the condition is false nothing is
written and the trackers are unchanged (only the loop variable `tnow`
advances). -/
theorem write_policy_iff (s : LoopState) (inp : StepInput) (hmdot : inp.mdot ≠ 0) :
    ((deltaT < |inp.T - s.Tprev| ∨ deltaTime < inp.t - s.tprev) →
        stepOnce s inp = some { tnow := inp.t, Tprev := inp.T, tprev := inp.t,
                                rows := s.rows ++ [⟨inp.t, inp.T, inp.mass / inp.mdot, inp.X⟩] }) ∧
      (¬(deltaT < |inp.T - s.Tprev| ∨ deltaTime < inp.t - s.tprev) →
        stepOnce s inp = some { s with tnow := inp.t }) := by
  constructor
  · intro hc
    have hw : shouldWrite inp.T s.Tprev inp.t s.tprev = true :=
      (shouldWrite_true_iff _ _ _ _).mpr hc
    simp [stepOnce, hmdot, hw]
  · intro hc
    have hw : shouldWrite inp.T s.Tprev inp.t s.tprev = false := by
      rw [← Bool.not_eq_true]
      exact fun hh => hc ((shouldWrite_true_iff _ _ _ _).mp hh)
    simp [stepOnce, hmdot, hw]

/-- Witness for C1 at a concrete loop state and step input. -/
theorem write_policy_iff_witness :
    (1:ℚ) ≠ 0 ∧
      (((deltaT < |(305:ℚ) - 300| ∨ deltaTime < (1:ℚ) - 0) →
          stepOnce (initState 300) ⟨1, 305, 2, 1, []⟩ =
            some { tnow := 1, Tprev := 305, tprev := 1,
                   rows := [⟨1, 305, 2/1, []⟩] }) ∧
        (¬(deltaT < |(305:ℚ) - 300| ∨ deltaTime < (1:ℚ) - 0) →
          stepOnce (initState 300) ⟨1, 305, 2, 1, []⟩ =
            some { tnow := 1, Tprev := 300, tprev := 0, rows := [] })) :=
  ⟨by norm_num, write_policy_iff (initState 300) ⟨1, 305, 2, 1, []⟩ (by norm_num)⟩

/-- A loop-body iteration only appends to the rows already written. -/
theorem stepOnce_rows (s : LoopState) (inp : StepInput) (s₁ : LoopState)
    (h : stepOnce s inp = some s₁) : ∃ l, s₁.rows = s.rows ++ l := by
  by_cases h0 : inp.mdot = 0
  · simp [stepOnce, h0] at h
  · by_cases hw : shouldWrite inp.T s.Tprev inp.t s.tprev = true
    · simp [stepOnce, h0, hw] at h
      exact ⟨[⟨inp.t, inp.T, inp.mass / inp.mdot, inp.X⟩], by rw [← h]⟩
    · simp [stepOnce, h0, hw] at h
      exact ⟨[], by rw [← h]; simp⟩

/-- Whatever the loop writes comes after the rows already written. -/
theorem runLoop_rows_extend (steps : List StepInput) :
    ∀ s : LoopState, ∃ l, outRows (runLoop s steps) = s.rows ++ l := by
  induction steps with
  | nil => exact fun s => ⟨[], by simp [runLoop, outRows]⟩
  | cons inp rest ih =>
    intro s
    by_cases hlt : s.tnow < tfinal
    · rcases hs : stepOnce s inp with _ | s₁
      · exact ⟨[], by rw [runLoop]; simp [hlt, hs, outRows]⟩
      · obtain ⟨l₁, hl₁⟩ := ih s₁
        obtain ⟨l₂, hl₂⟩ := stepOnce_rows s inp s₁ hs
        refine ⟨l₂ ++ l₁, ?_⟩
        rw [runLoop]
        simp only [if_pos hlt, hs]
        rw [hl₁, hl₂, List.append_assoc]
    · exact ⟨[], by rw [runLoop]; simp [hlt, outRows]⟩

/-- The first record a run writes was decided by `shouldWrite` against the
trackers the loop started with. -/
theorem runLoop_first_row (steps : List StepInput) :
    ∀ s : LoopState, s.rows = [] → ∀ (r : Row) (rest : List Row),
      outRows (runLoop s steps) = r :: rest →
      shouldWrite r.temp s.Tprev r.time s.tprev = true := by
  induction steps with
  | nil =>
    intro s hrows r rest h
    rw [runLoop] at h
    simp [outRows, hrows] at h
  | cons inp tl ih =>
    intro s hrows r rest h
    by_cases hlt : s.tnow < tfinal
    · by_cases h0 : inp.mdot = 0
      · rw [runLoop] at h
        simp [hlt, stepOnce, h0, outRows, hrows] at h
      · by_cases hw : shouldWrite inp.T s.Tprev inp.t s.tprev = true
        · have hs : stepOnce s inp =
              some ⟨inp.t, inp.T, inp.t,
                s.rows ++ [⟨inp.t, inp.T, inp.mass / inp.mdot, inp.X⟩]⟩ := by
            simp [stepOnce, h0, hw]
          rw [runLoop] at h
          simp only [if_pos hlt, hs] at h
          obtain ⟨l, hl⟩ := runLoop_rows_extend tl
              ⟨inp.t, inp.T, inp.t, s.rows ++ [⟨inp.t, inp.T, inp.mass / inp.mdot, inp.X⟩]⟩
          rw [h, hrows] at hl
          simp at hl
          rw [hl.1]
          exact hw
        · have hs : stepOnce s inp = some { s with tnow := inp.t } := by
            simp [stepOnce, h0, hw]
          rw [runLoop] at h
          simp only [if_pos hlt, hs] at h
          exact ih { s with tnow := inp.t } hrows r rest h
    · rw [runLoop] at h
      simp [hlt, outRows, hrows] at h

/-- C5: the trackers are initialised to the reactor state at simulated time
0 (`tprev = 0`, `Tprev = T0`), and the first record a normally-exiting run
writes was emitted by comparing against that time-0 reference point. -/
theorem trackers_init_first_record (T0 : ℚ) (steps : List StepInput)
    (s' : LoopState) (h : runLoop (initState T0) steps = Except.ok s')
    (r : Row) (rest : List Row) (hr : s'.rows = r :: rest) :
    (initState T0).tprev = 0 ∧ (initState T0).Tprev = T0 ∧
      shouldWrite r.temp T0 r.time 0 = true := by
  refine ⟨rfl, rfl, ?_⟩
  have h2 : outRows (runLoop (initState T0) steps) = r :: rest := by
    rw [h]; exact hr
  exact runLoop_first_row steps (initState T0) rfl r rest h2

/-- Witness for C5 on a one-step run that writes one record. -/
theorem trackers_init_first_record_witness :
    runLoop (initState 300) [⟨1, 300, 2, 1, []⟩] =
        Except.ok ⟨1, 300, 1, [⟨1, 300, 2, []⟩]⟩ ∧
      ((initState 300).tprev = 0 ∧ (initState 300).Tprev = 300 ∧
        shouldWrite (300:ℚ) 300 1 0 = true) :=
  have hrun : runLoop (initState 300) [⟨1, 300, 2, 1, []⟩] =
      Except.ok ⟨1, 300, 1, [⟨1, 300, 2, []⟩]⟩ := by
    norm_num [runLoop, stepOnce, shouldWrite, initState, tfinal, deltaT, deltaTime]
  ⟨hrun, trackers_init_first_record 300 [⟨1, 300, 2, 1, []⟩]
    ⟨1, 300, 1, [⟨1, 300, 2, []⟩]⟩ hrun ⟨1, 300, 2, []⟩ [] rfl⟩

/-- `tprev` is always the time of the last written record, or still `0` with
no record written yet. -/
def TrackerInv (s : LoopState) : Prop :=
  (s.rows = [] ∧ s.tprev = 0) ∨ ∃ r, s.rows.getLast? = some r ∧ r.time = s.tprev

/-- A loop-body iteration preserves `TrackerInv`. -/
theorem stepOnce_inv (s : LoopState) (inp : StepInput) (s₁ : LoopState)
    (h : stepOnce s inp = some s₁) (hJ : TrackerInv s) : TrackerInv s₁ := by
  by_cases h0 : inp.mdot = 0
  · simp [stepOnce, h0] at h
  · by_cases hw : shouldWrite inp.T s.Tprev inp.t s.tprev = true
    · simp [stepOnce, h0, hw] at h
      refine Or.inr ⟨⟨inp.t, inp.T, inp.mass / inp.mdot, inp.X⟩, ?_, ?_⟩
      · rw [← h]; exact List.getLast?_concat _
      · rw [← h]
    · simp [stepOnce, h0, hw] at h
      rw [← h]
      exact hJ

/-- Once `tnow` has reached `tfinal`, the loop consumes nothing more. -/
theorem runLoop_done (s : LoopState) (h : ¬ s.tnow < tfinal) :
    ∀ steps, runLoop s steps = Except.ok s := by
  intro steps
  cases steps with
  | nil => rw [runLoop]
  | cons a l => rw [runLoop]; simp [h]

/-- The step inputs refuting C3: the second step reaches 6.001 s ≥ 6.0 s, but
it is within 0.02 s of the record written at 5.99 s and changes the
temperature by less than 1 K, so no record is written for it. -/
def cexSteps : List StepInput :=
  [⟨599/100, 300, 1, 1, []⟩, ⟨6001/1000, 300, 1, 1, []⟩]

/-- C3 counterexample: a stepper sequence reaching 6.001 ≥ 6.0 for which the
run exits normally yet the last written record has time 5.99 < 6.0. -/
theorem last_time_counterexample :
    cexSteps.map StepInput.t = [599/100, 6001/1000] ∧ tfinal ≤ (6001/1000 : ℚ) ∧
      lastWrittenTime (runLoop (initState 300) cexSteps) = some (599/100) ∧
      ¬ tfinal ≤ (599/100 : ℚ) := by
  refine ⟨rfl, by norm_num [tfinal], ?_, by norm_num [tfinal]⟩
  norm_num [cexSteps, runLoop, stepOnce, shouldWrite, initState, tfinal, deltaT,
    deltaTime, lastWrittenTime]

/-- C3 (amended): if no step has a zero valve flow and some stepper-returned
time reaches `tfinal = 6.0`, the loop exits normally as soon as `t_now ≥ 6.0`
(appending further stepper output changes nothing), a record has been
written, and the last written record's time is at least `6.0 - 0.02` —
though not necessarily `≥ 6.0`. -/
theorem loop_reaches_tfinal (T0 : ℚ) (steps : List StepInput)
    (hmdot : ∀ inp ∈ steps, inp.mdot ≠ 0)
    (hreach : ∃ inp ∈ steps, tfinal ≤ inp.t) :
    ∃ s', runLoop (initState T0) steps = Except.ok s' ∧ tfinal ≤ s'.tnow ∧
      (∀ more, runLoop (initState T0) (steps ++ more) = Except.ok s') ∧
      ∃ r, s'.rows.getLast? = some r ∧ tfinal - deltaTime ≤ r.time := by
  have main : ∀ (steps : List StepInput) (s : LoopState), TrackerInv s →
      s.tnow < tfinal → (∀ inp ∈ steps, inp.mdot ≠ 0) →
      (∃ inp ∈ steps, tfinal ≤ inp.t) →
      ∃ s', runLoop s steps = Except.ok s' ∧ tfinal ≤ s'.tnow ∧
        (∀ more, runLoop s (steps ++ more) = Except.ok s') ∧
        ∃ r, s'.rows.getLast? = some r ∧ tfinal - deltaTime ≤ r.time := by
    intro steps
    induction steps with
    | nil => intro s _ _ _ hreach; simp at hreach
    | cons inp rest ih =>
      intro s hJ hlt hmdot hreach
      have h0 : inp.mdot ≠ 0 := hmdot inp (by simp)
      obtain ⟨s₁, hs₁⟩ : ∃ s₁, stepOnce s inp = some s₁ := by
        by_cases hw : shouldWrite inp.T s.Tprev inp.t s.tprev = true
        · refine ⟨⟨inp.t, inp.T, inp.t,
            s.rows ++ [⟨inp.t, inp.T, inp.mass / inp.mdot, inp.X⟩]⟩, ?_⟩
          simp [stepOnce, h0, hw]
        · refine ⟨{ s with tnow := inp.t }, ?_⟩
          simp [stepOnce, h0, hw]
      have htnow : s₁.tnow = inp.t := by
        by_cases hw : shouldWrite inp.T s.Tprev inp.t s.tprev = true
        · simp [stepOnce, h0, hw] at hs₁; rw [← hs₁]
        · simp [stepOnce, h0, hw] at hs₁; rw [← hs₁]
      by_cases hend : tfinal ≤ inp.t
      · refine ⟨s₁, ?_, by rw [htnow]; exact hend, ?_, ?_⟩
        · rw [runLoop]; simp only [if_pos hlt, hs₁]
          exact runLoop_done s₁ (by rw [htnow]; exact not_lt.mpr hend) rest
        · intro more
          rw [List.cons_append, runLoop]; simp only [if_pos hlt, hs₁]
          exact runLoop_done s₁ (by rw [htnow]; exact not_lt.mpr hend) _
        · by_cases hw : shouldWrite inp.T s.Tprev inp.t s.tprev = true
          · simp [stepOnce, h0, hw] at hs₁
            refine ⟨⟨inp.t, inp.T, inp.mass / inp.mdot, inp.X⟩, ?_, ?_⟩
            · rw [← hs₁]; exact List.getLast?_concat _
            · have : tfinal - deltaTime ≤ tfinal := by norm_num [deltaTime]
              exact le_trans this hend
          · simp [stepOnce, h0, hw] at hs₁
            have hsmall : inp.t - s.tprev ≤ deltaTime := by
              have := (shouldWrite_true_iff inp.T s.Tprev inp.t s.tprev).not.mp
                (by simpa using hw)
              push_neg at this
              exact this.2
            have htp : tfinal - deltaTime ≤ s.tprev := by linarith
            rcases hJ with ⟨-, hz⟩ | ⟨r, hr, hrt⟩
            · exfalso
              rw [hz] at htp
              norm_num [tfinal, deltaTime] at htp
            · exact ⟨r, by rw [← hs₁]; exact hr, by rw [hrt]; exact htp⟩
      · have hlt₁ : s₁.tnow < tfinal := by rw [htnow]; exact lt_of_not_le hend
        have hreach₁ : ∃ i ∈ rest, tfinal ≤ i.t := by
          rcases hreach with ⟨i, hi, hit⟩
          rcases List.mem_cons.mp hi with rfl | hi'
          · exact absurd hit hend
          · exact ⟨i, hi', hit⟩
        obtain ⟨s', h1, h2, h3, h4⟩ := ih s₁ (stepOnce_inv s inp s₁ hs₁ hJ) hlt₁
          (fun i hi => hmdot i (List.mem_cons_of_mem _ hi)) hreach₁
        refine ⟨s', ?_, h2, ?_, h4⟩
        · rw [runLoop]; simp only [if_pos hlt, hs₁]; exact h1
        · intro more
          rw [List.cons_append, runLoop]; simp only [if_pos hlt, hs₁]
          exact h3 more
  exact main steps (initState T0) (Or.inl ⟨rfl, rfl⟩)
    (by norm_num [initState, tfinal]) hmdot hreach

/-- Witness for the amended C3 on a one-step run that jumps past 6.0 s. -/
theorem loop_reaches_tfinal_witness :
    (∀ inp ∈ [(⟨7, 300, 1, 1, []⟩ : StepInput)], inp.mdot ≠ 0) ∧
      (∃ inp ∈ [(⟨7, 300, 1, 1, []⟩ : StepInput)], tfinal ≤ inp.t) ∧
      ∃ s', runLoop (initState 300) [⟨7, 300, 1, 1, []⟩] = Except.ok s' ∧
        tfinal ≤ s'.tnow ∧
        (∀ more, runLoop (initState 300) ([⟨7, 300, 1, 1, []⟩] ++ more) =
          Except.ok s') ∧
        ∃ r, s'.rows.getLast? = some r ∧ tfinal - deltaTime ≤ r.time :=
  have hm : ∀ inp ∈ [(⟨7, 300, 1, 1, []⟩ : StepInput)], inp.mdot ≠ 0 := by
    simp
  have hr : ∃ inp ∈ [(⟨7, 300, 1, 1, []⟩ : StepInput)], tfinal ≤ inp.t :=
    ⟨⟨7, 300, 1, 1, []⟩, by simp, by norm_num [tfinal]⟩
  ⟨hm, hr, loop_reaches_tfinal 300 [⟨7, 300, 1, 1, []⟩] hm hr⟩

/-- C6: at each step the residence time is the quotient `mass / mdot`; a zero
valve flow rate is an unhandled failure that terminates the run at once with
exactly the rows already written (whatever stepper output would follow), and
with a nonzero flow rate the step succeeds and any record written at it
carries `tres = mass / mdot` exactly. -/
theorem tres_division (s : LoopState) (inp : StepInput) (more : List StepInput)
    (hlt : s.tnow < tfinal) :
    (inp.mdot = 0 → runLoop s (inp :: more) = Except.error s.rows) ∧
      (inp.mdot ≠ 0 →
        (shouldWrite inp.T s.Tprev inp.t s.tprev = true →
          stepOnce s inp =
            some { tnow := inp.t, Tprev := inp.T, tprev := inp.t,
                   rows := s.rows ++ [⟨inp.t, inp.T, inp.mass / inp.mdot, inp.X⟩] }) ∧
        ∃ s₁, stepOnce s inp = some s₁) := by
  constructor
  · intro h0
    rw [runLoop]
    simp [hlt, stepOnce, h0]
  · intro h0
    refine ⟨fun hw => by simp [stepOnce, h0, hw], ?_⟩
    by_cases hw : shouldWrite inp.T s.Tprev inp.t s.tprev = true
    · refine ⟨⟨inp.t, inp.T, inp.t,
        s.rows ++ [⟨inp.t, inp.T, inp.mass / inp.mdot, inp.X⟩]⟩, ?_⟩
      simp [stepOnce, h0, hw]
    · refine ⟨{ s with tnow := inp.t }, ?_⟩
      simp [stepOnce, h0, hw]

/-- Witness for C6 at a concrete state where the valve flow rate is zero. -/
theorem tres_division_witness :
    ((⟨1, 300, 2, 0, []⟩ : StepInput).mdot = 0 →
        runLoop (initState 300) [⟨1, 300, 2, 0, []⟩] = Except.error []) ∧
      ((⟨1, 300, 2, 0, []⟩ : StepInput).mdot ≠ 0 →
        (shouldWrite (300:ℚ) 300 1 0 = true →
          stepOnce (initState 300) ⟨1, 300, 2, 0, []⟩ =
            some { tnow := 1, Tprev := 300, tprev := 1,
                   rows := [⟨1, 300, 2/0, []⟩] }) ∧
        ∃ s₁, stepOnce (initState 300) ⟨1, 300, 2, 0, []⟩ = some s₁) :=
  tres_division (initState 300) ⟨1, 300, 2, 0, []⟩ []
    (by norm_num [initState, tfinal])

/-- The times of the rows the loop outputs form a sublist of the
already-written times followed by the stepper-returned times. -/
theorem outRows_times_sublist (steps : List StepInput) :
    ∀ s : LoopState,
      ((outRows (runLoop s steps)).map Row.time).Sublist
        (s.rows.map Row.time ++ steps.map StepInput.t) := by
  induction steps with
  | nil => intro s; simp [runLoop, outRows]
  | cons inp rest ih =>
    intro s
    by_cases hlt : s.tnow < tfinal
    · by_cases h0 : inp.mdot = 0
      · rw [runLoop]
        simp only [if_pos hlt, stepOnce, if_pos h0, outRows]
        exact List.sublist_append_left _ _
      · by_cases hw : shouldWrite inp.T s.Tprev inp.t s.tprev = true
        · have hs : stepOnce s inp =
              some ⟨inp.t, inp.T, inp.t,
                s.rows ++ [⟨inp.t, inp.T, inp.mass / inp.mdot, inp.X⟩]⟩ := by
            simp [stepOnce, h0, hw]
          rw [runLoop]; simp only [if_pos hlt, hs]
          have h := ih ⟨inp.t, inp.T, inp.t,
            s.rows ++ [⟨inp.t, inp.T, inp.mass / inp.mdot, inp.X⟩]⟩
          simpa using h
        · have hs : stepOnce s inp = some { s with tnow := inp.t } := by
            simp [stepOnce, h0, hw]
          rw [runLoop]; simp only [if_pos hlt, hs]
          have h := ih { s with tnow := inp.t }
          exact h.trans ((List.sublist_cons_self inp.t _).append_left _)
    · rw [runLoop]
      simp only [if_neg hlt, outRows]
      exact List.sublist_append_left _ _

/-- C7: when the stepper-returned times are strictly increasing, the written
rows appear in strictly increasing time order. -/
theorem written_times_strict_mono (T0 : ℚ) (steps : List StepInput)
    (hmono : (steps.map StepInput.t).Pairwise (· < ·)) :
    ((outRows (runLoop (initState T0) steps)).map Row.time).Pairwise (· < ·) := by
  have hsub := outRows_times_sublist steps (initState T0)
  simp only [initState, List.map_nil, List.nil_append] at hsub
  exact List.Pairwise.sublist hsub hmono

/-- Witness for C7 on a two-step run with increasing times. -/
theorem written_times_strict_mono_witness :
    ([(⟨1, 350, 2, 1, []⟩ : StepInput), ⟨2, 500, 2, 1, []⟩].map StepInput.t).Pairwise
        (· < ·) ∧
      ((outRows (runLoop (initState 300)
          [⟨1, 350, 2, 1, []⟩, ⟨2, 500, 2, 1, []⟩])).map Row.time).Pairwise (· < ·) :=
  have hm : ([(⟨1, 350, 2, 1, []⟩ : StepInput), ⟨2, 500, 2, 1, []⟩].map
      StepInput.t).Pairwise (· < ·) := by
    simp
  ⟨hm, written_times_strict_mono 300 _ hm⟩

/-- Every row a run outputs was either already written or carries the species
vector of one of the consumed step inputs. -/
theorem outRows_X_from_steps (steps : List StepInput) :
    ∀ s : LoopState, ∀ r ∈ outRows (runLoop s steps),
      r ∈ s.rows ∨ ∃ inp ∈ steps, r.X = inp.X := by
  induction steps with
  | nil =>
    intro s r hr
    rw [runLoop] at hr
    exact Or.inl hr
  | cons inp rest ih =>
    intro s r hr
    by_cases hlt : s.tnow < tfinal
    · by_cases h0 : inp.mdot = 0
      · rw [runLoop] at hr
        simp only [if_pos hlt, stepOnce, if_pos h0, outRows] at hr
        exact Or.inl hr
      · by_cases hw : shouldWrite inp.T s.Tprev inp.t s.tprev = true
        · have hs : stepOnce s inp =
              some ⟨inp.t, inp.T, inp.t,
                s.rows ++ [⟨inp.t, inp.T, inp.mass / inp.mdot, inp.X⟩]⟩ := by
            simp [stepOnce, h0, hw]
          rw [runLoop] at hr
          simp only [if_pos hlt, hs] at hr
          rcases ih _ r hr with hmem | ⟨inp', h1, h2⟩
          · rcases List.mem_append.mp hmem with h | h
            · exact Or.inl h
            · simp only [List.mem_singleton] at h
              exact Or.inr ⟨inp, by simp, by rw [h]⟩
          · exact Or.inr ⟨inp', List.mem_cons_of_mem _ h1, h2⟩
        · have hs : stepOnce s inp = some { s with tnow := inp.t } := by
            simp [stepOnce, h0, hw]
          rw [runLoop] at hr
          simp only [if_pos hlt, hs] at hr
          rcases ih _ r hr with hmem | ⟨inp', h1, h2⟩
          · exact Or.inl hmem
          · exact Or.inr ⟨inp', List.mem_cons_of_mem _ h1, h2⟩
    · rw [runLoop] at hr
      simp only [if_neg hlt, outRows] at hr
      exact Or.inl hr

/-- C4: the written table's header is exactly `time, T, tres` followed by
every species name of the chemistry model in its native ordering; the header
has `3 + N` cells and, when every step reports one mole fraction per
species, every data row also has `3 + N` cells. -/
theorem table_arity (speciesNames : List String) (T0 : ℚ) (steps : List StepInput)
    (hX : ∀ inp ∈ steps, inp.X.length = speciesNames.length) :
    (runProgram speciesNames T0 steps).header = ["time", "T", "tres"] ++ speciesNames ∧
      (runProgram speciesNames T0 steps).header.length = 3 + speciesNames.length ∧
      ∀ r ∈ (runProgram speciesNames T0 steps).dataRows,
        r.toList.length = 3 + speciesNames.length := by
  refine ⟨rfl, by simp [runProgram, fieldnames]; omega, ?_⟩
  intro r hr
  rcases outRows_X_from_steps steps (initState T0) r hr with hmem | ⟨inp, h1, h2⟩
  · simp [initState] at hmem
  · simp [Row.toList, h2, hX inp h1]; omega

/-- Witness for C4 on a two-species table and a one-step run. -/
theorem table_arity_witness :
    (∀ inp ∈ [(⟨1, 300, 2, 1, [1/2, 1/2]⟩ : StepInput)],
        inp.X.length = ["A", "B"].length) ∧
      ((runProgram ["A", "B"] 300 [⟨1, 300, 2, 1, [1/2, 1/2]⟩]).header =
          ["time", "T", "tres"] ++ ["A", "B"] ∧
        (runProgram ["A", "B"] 300 [⟨1, 300, 2, 1, [1/2, 1/2]⟩]).header.length =
          3 + (["A", "B"] : List String).length ∧
        ∀ r ∈ (runProgram ["A", "B"] 300 [⟨1, 300, 2, 1, [1/2, 1/2]⟩]).dataRows,
          r.toList.length = 3 + (["A", "B"] : List String).length) :=
  have hX : ∀ inp ∈ [(⟨1, 300, 2, 1, [1/2, 1/2]⟩ : StepInput)],
      inp.X.length = ["A", "B"].length := by simp
  ⟨hX, table_arity ["A", "B"] 300 [⟨1, 300, 2, 1, [1/2, 1/2]⟩] hX⟩

/-- `fwhm = 0.2` (line 69). -/
noncomputable def fwhm : ℝ := 0.2

/-- `amplitude = 1.0` (line 70). -/
noncomputable def amplitude : ℝ := 1.0

/-- `t0 = 0.4` (line 71). -/
noncomputable def t0 : ℝ := 0.4

/-- The igniter mass-flow profile (line 72):
`lambda t: amplitude * math.exp(-(t-t0)**2 * 4 * math.log(2) / fwhm**2)`,
a pure function of the query time `t`. -/
noncomputable def igniter_mdot (t : ℝ) : ℝ :=
  amplitude * Real.exp (-(t - t0)^2 * 4 * Real.log 2 / fwhm^2)

/-- C2: the igniter profile takes the value `amplitude` exactly at `t0`,
half the amplitude at `t0 ± fwhm/2`, and is symmetric about `t0`. -/
theorem igniter_profile (d : ℝ) :
    igniter_mdot t0 = amplitude ∧
      igniter_mdot (t0 + fwhm/2) = amplitude/2 ∧
      igniter_mdot (t0 - fwhm/2) = amplitude/2 ∧
      igniter_mdot (t0 + d) = igniter_mdot (t0 - d) := by
  have hf : (fwhm:ℝ) ≠ 0 := by norm_num [fwhm]
  have key : ∀ u : ℝ, (u - t0)^2 = (fwhm/2)^2 → igniter_mdot u = amplitude / 2 := by
    intro u hu
    rw [igniter_mdot, hu]
    have h2 : -(fwhm/2)^2 * 4 * Real.log 2 / fwhm^2 = -Real.log 2 := by
      field_simp
      ring
    rw [h2, Real.exp_neg, Real.exp_log (by norm_num : (0:ℝ) < 2)]
    norm_num [amplitude]
  refine ⟨?_, ?_, ?_, ?_⟩
  · simp [igniter_mdot]
  · exact key _ (by ring)
  · exact key _ (by ring)
  · have hsq : (t0 + d - t0)^2 = (t0 - d - t0)^2 := by ring
    rw [igniter_mdot, igniter_mdot, hsq]

/-- C9: at every real time the igniter flow is strictly positive — it is
never exactly zero, only asymptotically vanishing — and is at most the
amplitude, reaching it exactly at the pulse centre `t0`. -/
theorem igniter_pos_le (t : ℝ) :
    0 < igniter_mdot t ∧ igniter_mdot t ≤ amplitude ∧
      (igniter_mdot t = amplitude ↔ t = t0) := by
  have hlog : (0:ℝ) < Real.log 2 := Real.log_pos (by norm_num)
  have hf2 : (0:ℝ) < fwhm^2 := by norm_num [fwhm]
  have hexp : -(t - t0)^2 * 4 * Real.log 2 / fwhm^2 ≤ 0 := by
    apply div_nonpos_of_nonpos_of_nonneg _ (le_of_lt hf2)
    have h1 : 0 ≤ (t - t0)^2 := sq_nonneg _
    nlinarith
  have hamp1 : (amplitude : ℝ) = 1 := by norm_num [amplitude]
  refine ⟨?_, ?_, ?_⟩
  · rw [igniter_mdot, hamp1, one_mul]
    exact Real.exp_pos _
  · rw [igniter_mdot, hamp1, one_mul]
    exact Real.exp_le_one_iff.mpr hexp
  · rw [igniter_mdot]
    have hamp : amplitude * Real.exp (-(t - t0)^2 * 4 * Real.log 2 / fwhm^2) =
        amplitude ↔ Real.exp (-(t - t0)^2 * 4 * Real.log 2 / fwhm^2) = 1 := by
      rw [amplitude]
      norm_num
    rw [hamp, Real.exp_eq_one_iff]
    constructor
    · intro h
      rcases div_eq_zero_iff.mp h with h1 | h1
      · have h3 : (t - t0)^2 = 0 := by
          rcases mul_eq_zero.mp h1 with h2 | h2
          · rcases mul_eq_zero.mp h2 with h4 | h4
            · simpa using h4
            · norm_num at h4
          · exact absurd h2 (ne_of_gt hlog)
        have := pow_eq_zero_iff (n := 2) (by norm_num) |>.mp h3
        linarith [sub_eq_zero.mp this]
      · exact absurd h1 (ne_of_gt hf2)
    · intro h
      rw [h]
      simp

/-- `csv.writer.writerow`: join a row's cells with the `,` delimiter into one
line of text. -/
def joinCells : List (List Char) → List Char
  | [] => []
  | c :: cs =>
    match cs with
    | [] => c
    | _ :: _ => c ++ ',' :: joinCells cs

/-- Prepend a character to the first cell of a parsed line. -/
def consHead (c : Char) : List (List Char) → List (List Char)
  | [] => [[c]]
  | cell :: cells => (c :: cell) :: cells

/-- `csv.reader`'s field parsing of one line: split on the `,` delimiter. -/
def splitLine : List Char → List (List Char)
  | [] => [[]]
  | c :: rest =>
    if c = ',' then [] :: splitLine rest
    else consHead c (splitLine rest)

/-- A comma-free cell parses back as the single cell of its line. -/
theorem splitLine_no_comma (cell : List Char) (h : ',' ∉ cell) :
    splitLine cell = [cell] := by
  induction cell with
  | nil => rfl
  | cons c rest ih =>
    have hc : ¬(c = ',') := by
      intro hh; subst hh; exact h (List.mem_cons_self _ _)
    rw [splitLine, if_neg hc, ih (fun hm => h (List.mem_cons_of_mem _ hm))]
    rfl

/-- Splitting a line that starts with a comma-free cell followed by a comma
peels off exactly that cell. -/
theorem splitLine_cell_comma (cell tail : List Char) (h : ',' ∉ cell) :
    splitLine (cell ++ ',' :: tail) = cell :: splitLine tail := by
  induction cell with
  | nil => simp [splitLine]
  | cons c rest ih =>
    have hc : ¬(c = ',') := by
      intro hh; subst hh; exact h (List.mem_cons_self _ _)
    rw [List.cons_append, splitLine, if_neg hc,
      ih (fun hm => h (List.mem_cons_of_mem _ hm))]
    rfl

/-- Text round-trip of one CSV line: splitting the joined cells recovers the
cells, provided none of them contains the delimiter. -/
theorem splitLine_joinCells (cells : List (List Char)) (hne : cells ≠ [])
    (h : ∀ cell ∈ cells, ',' ∉ cell) :
    splitLine (joinCells cells) = cells := by
  induction cells with
  | nil => exact absurd rfl hne
  | cons c cs ih =>
    cases cs with
    | nil =>
      rw [joinCells]
      exact splitLine_no_comma c (h c (List.mem_cons_self _ _))
    | cons c₂ cs₂ =>
      rw [joinCells]
      rw [splitLine_cell_comma c _ (h c (List.mem_cons_self _ _))]
      rw [ih (by simp) (fun x hx => h x (List.mem_cons_of_mem _ hx))]

/-- Python's `dict(zip(fieldnames, cells))` looked up at `field`: a later
duplicate fieldname overwrites an earlier one, and a field with no cell
(short row) maps to `None`. -/
def rowDict : List (List Char) → List (List Char) → List Char → Option (List Char)
  | [], _, _ => none
  | _ :: _, [], _ => none
  | f :: fns, v :: vals, field =>
    match rowDict fns vals field with
    | some w => some w
    | none => if field = f then some v else none

/-- A field that is not among the fieldnames resolves to nothing. -/
theorem rowDict_not_mem (fns : List (List Char)) :
    ∀ (vals : List (List Char)) (field : List Char), field ∉ fns →
      rowDict fns vals field = none := by
  induction fns with
  | nil => intro vals field _; cases vals <;> rfl
  | cons f fns ih =>
    intro vals field h
    cases vals with
    | nil => rfl
    | cons v vals =>
      have h1 : field ∉ fns := fun hm => h (List.mem_cons_of_mem _ hm)
      have h2 : ¬(field = f) := by
        intro hh; subst hh; exact h (List.mem_cons_self _ _)
      simp [rowDict, ih vals field h1, h2]

/-- Looking up the `j`-th fieldname returns the `j`-th cell, provided that
name does not recur later in the header (a later duplicate would win). -/
theorem rowDict_get (j : ℕ) :
    ∀ (fns vals : List (List Char)) (hj : j < fns.length), j < vals.length →
      fns[j] ∉ fns.drop (j+1) →
      rowDict fns vals fns[j] = vals.get? j := by
  induction j with
  | zero =>
    intro fns vals hj hjv hnot
    cases fns with
    | nil => simp at hj
    | cons f fns =>
      cases vals with
      | nil => simp at hjv
      | cons v vals =>
        have h1 : rowDict fns vals f = none :=
          rowDict_not_mem fns vals f (by simpa using hnot)
        simp [rowDict, h1]
  | succ j ih =>
    intro fns vals hj hjv hnot
    cases fns with
    | nil => simp at hj
    | cons f fns =>
      cases vals with
      | nil => simp at hjv
      | cons v vals =>
        have hj1 : j < fns.length := by simpa using hj
        have hjv1 : j < vals.length := by simpa using hjv
        have hnot1 : fns[j] ∉ fns.drop (j+1) := by simpa using hnot
        have hrec := ih fns vals hj1 hjv1 hnot1
        obtain ⟨w, hw⟩ : ∃ w, vals.get? j = some w :=
          ⟨vals.get ⟨j, hjv1⟩, List.get?_eq_get hjv1⟩
        rw [hw] at hrec
        simp [rowDict, hrec, hw]
        exact hw.symm.trans (List.get?_eq_getElem? vals j)

/-- The header cells of the written file: `time`, `T`, `tres`, then every
species name. -/
def headerCells (names : List (List Char)) : List (List Char) :=
  "time".toList :: "T".toList :: "tres".toList :: names

/-- C8: parsing the written header line and a written data line and selecting
a species column through the dict reproduces exactly the text written for
that species' mole fraction, for every species name that does not recur later
in the header. -/
theorem species_roundtrip (names xs : List (List Char)) (a b c : List Char)
    (j : ℕ) (hj : j < names.length) (hlen : names.length = xs.length)
    (hname : ∀ n ∈ names, ',' ∉ n)
    (hcells : ∀ cell ∈ [a, b, c] ++ xs, ',' ∉ cell)
    (hlast : names[j] ∉ names.drop (j+1)) :
    rowDict (splitLine (joinCells (headerCells names)))
        (splitLine (joinCells ([a, b, c] ++ xs)))
        names[j] = xs.get? j := by
  have hhead : splitLine (joinCells (headerCells names)) = headerCells names := by
    apply splitLine_joinCells _ (by simp [headerCells])
    intro cell hc
    rcases List.mem_cons.mp hc with rfl | hc
    · decide
    · rcases List.mem_cons.mp hc with rfl | hc
      · decide
      · rcases List.mem_cons.mp hc with rfl | hc
        · decide
        · exact hname cell hc
  have hdata : splitLine (joinCells ([a, b, c] ++ xs)) = [a, b, c] ++ xs :=
    splitLine_joinCells _ (by simp) hcells
  rw [hhead, hdata]
  have hjx : j < xs.length := hlen ▸ hj
  have hrec : rowDict names xs names[j] = xs.get? j :=
    rowDict_get j names xs hj hjx hlast
  obtain ⟨w, hw⟩ : ∃ w, xs.get? j = some w :=
    ⟨xs.get ⟨j, hjx⟩, List.get?_eq_get hjx⟩
  rw [hw] at hrec
  rw [headerCells]
  simp [rowDict, hrec, hw]
  exact hw.symm.trans (List.get?_eq_getElem? xs j)

/-- Witness for C8 with two species and concrete one-character cells. -/
theorem species_roundtrip_witness :
    (1 < ([['A'], ['B']] : List (List Char)).length) ∧
      (∀ n ∈ ([['A'], ['B']] : List (List Char)), ',' ∉ n) ∧
      (∀ cell ∈ ([['5'], ['6'], ['7']] ++ [['1'], ['2']] : List (List Char)),
        ',' ∉ cell) ∧
      rowDict (splitLine (joinCells (headerCells [['A'], ['B']])))
          (splitLine (joinCells ([['5'], ['6'], ['7']] ++ [['1'], ['2']])))
          ['B'] =
        ([['1'], ['2']] : List (List Char)).get? 1 :=
  ⟨by decide, by decide, by decide,
    species_roundtrip [['A'], ['B']] [['1'], ['2']] ['5'] ['6'] ['7'] 1
      (by decide) (by decide) (by decide) (by decide) (by decide)⟩

/-- One pass of `csv.DictReader` over the whole file: when the fieldnames
are not yet set they are taken from the first line, which is consumed as the
header; on any later pass (after `csvfile.seek(0)`) the fieldnames are
already set and every line — the header line included — is yielded as a data
row. -/
def dictReaderPass (fns : Option (List (List Char))) (file : List (List Char)) :
    Option (List (List Char)) × List (List Char → Option (List Char)) :=
  match fns with
  | none =>
    match file with
    | [] => (none, [])
    | h :: rest =>
      (some (splitLine h), rest.map (fun line => rowDict (splitLine h) (splitLine line)))
  | some f => (some f, file.map (fun line => rowDict f (splitLine line)))

/-- The read-back phase (lines 107-121): `column0` comes from the first pass
(header consumed for fieldnames), then for `columnT` and each selected
species the file is rewound with `seek(0)` and the spurious first element —
the header line read back as data — is removed with `pop(0)`. -/
def readPhase (file : List (List Char)) (selectspecies : List (List Char)) :
    List (Option (List Char)) × List (Option (List Char)) ×
      List (List (Option (List Char))) :=
  let p1 := dictReaderPass none file
  let column0 := p1.2.map (fun d => d "time".toList)
  let p2 := dictReaderPass p1.1 file
  let columnT := (p2.2.map (fun d => d "T".toList)).tail
  let selspeX := selectspecies.map
    (fun s => ((dictReaderPass p1.1 file).2.map (fun d => d s)).tail)
  (column0, columnT, selspeX)

/-- C10: the first pass consumes the header normally; every later pass
yields the header line as a spurious first data element, which `pop(0)`
removes; hence the time series, the temperature series, and every selected
species series have length equal to the number of data rows. -/
theorem readback_lengths (hLine : List Char) (dataLines : List (List Char))
    (sel : List (List Char)) :
    (readPhase (hLine :: dataLines) sel).1.length = dataLines.length ∧
      (readPhase (hLine :: dataLines) sel).2.1.length = dataLines.length ∧
      ((readPhase (hLine :: dataLines) sel).2.2.map List.length =
        List.replicate sel.length dataLines.length) ∧
      ((dictReaderPass (dictReaderPass none (hLine :: dataLines)).1
          (hLine :: dataLines)).2.head? =
        some (rowDict (splitLine hLine) (splitLine hLine))) := by
  refine ⟨?_, ?_, ?_, ?_⟩
  · simp [readPhase, dictReaderPass]
  · simp [readPhase, dictReaderPass]
  · simp [readPhase, dictReaderPass, Function.comp_def, List.map_const']
  · simp [dictReaderPass]

end PSR
